import Mathlib

/-!
Verification of the GCP-RAG-Solution repository against its natural-language
specification.

JavaScript strings are embedded as `List Char` (`JSStr`); the JS string
operations used by the frontend code (`split`, `startsWith`, `substring`,
`trim`, `indexOf`) are given as executable Lean functions with the same
semantics on the inputs that occur.  Backend components that are not part of
the repository snapshot (the Python pipeline stages and the retrieval
engine) are modelled from the specification text; each such definition says
so in its doc comment.
-/

set_option maxRecDepth 4096

namespace GCPRag

/-- Embedding of a JavaScript string as its list of characters. -/
abbrev JSStr := List Char

/-- JS `s.split(sep)` for a one-character separator: `"" → [""]`,
separators at the ends produce empty fields, exactly as in JS. -/
def jsSplitOnChar (c : Char) : JSStr → List JSStr
  | [] => [[]]
  | a :: rest =>
    match jsSplitOnChar c rest with
    | [] => [[]]
    | f :: fs => if a = c then [] :: f :: fs else (a :: f) :: fs

/-- `jsSplitOnChar` never returns the empty list of fields. -/
theorem jsSplitOnChar_ne_nil (c : Char) (s : JSStr) : jsSplitOnChar c s ≠ [] := by
  cases s with
  | nil => simp [jsSplitOnChar]
  | cons a rest =>
    simp only [jsSplitOnChar]
    cases h : jsSplitOnChar c rest with
    | nil => simp
    | cons f fs =>
      by_cases hac : a = c <;> simp [hac]

/-- The longest prefix of `s` containing no occurrence of `c`: the part of
`s` strictly before its first `c` (all of `s` when `c` is absent). -/
def prefixBeforeChar (c : Char) : JSStr → JSStr
  | [] => []
  | a :: rest => if a = c then [] else a :: prefixBeforeChar c rest

/-- The first field of a JS split is the longest prefix free of the
separator. -/
theorem jsSplitOnChar_head (c : Char) (s : JSStr) :
    (jsSplitOnChar c s).headD [] = prefixBeforeChar c s := by
  induction s with
  | nil => simp [jsSplitOnChar, prefixBeforeChar]
  | cons a rest ih =>
    simp only [jsSplitOnChar]
    cases h : jsSplitOnChar c rest with
    | nil => exact absurd h (jsSplitOnChar_ne_nil c rest)
    | cons f fs =>
      rw [h] at ih
      simp only [List.headD_cons] at ih
      by_cases hac : a = c
      · subst hac
        simp [prefixBeforeChar]
      · simp [hac, prefixBeforeChar, ih]

/- ------------------------------------------------------------------
src/frontend/src/utils/userUtils.js
------------------------------------------------------------------ -/

/-- `createUserSpecificId` from `userUtils.js`: throws (here `none`) when
either argument is falsy, else returns `baseId + "_" + userId`. -/
def createUserSpecificId (baseId userId : JSStr) : Option JSStr :=
  if baseId = [] ∨ userId = [] then none
  else some (baseId ++ '_' :: userId)

/-- `extractBaseId` from `userUtils.js`: throws (here `none`) when the
argument is falsy or has no underscore, else returns `split('_')[0]`. -/
def extractBaseId (userSpecificId : JSStr) : Option JSStr :=
  if userSpecificId = [] ∨ '_' ∉ userSpecificId then none
  else some ((jsSplitOnChar '_' userSpecificId).headD [])

theorem prefixBeforeChar_append_of_mem {b t : JSStr} (h : '_' ∈ b) :
    prefixBeforeChar '_' (b ++ t) = prefixBeforeChar '_' b := by
  induction b with
  | nil => cases h
  | cons a rest ih =>
    by_cases ha : a = '_'
    · subst ha; simp [prefixBeforeChar]
    · have hmem : '_' ∈ rest := by
        rcases List.mem_cons.mp h with h | h
        · exact absurd h.symm ha
        · exact h
      simp [prefixBeforeChar, ha, ih hmem]

theorem prefixBeforeChar_append_of_not_mem {b t : JSStr} (h : '_' ∉ b) :
    prefixBeforeChar '_' (b ++ '_' :: t) = b := by
  induction b with
  | nil => simp [prefixBeforeChar]
  | cons a rest ih =>
    have ha : a ≠ '_' := fun hc => h (by simp [hc])
    have hrest : '_' ∉ rest := fun hc => h (by simp [hc])
    simp [prefixBeforeChar, ha, ih hrest]

/-- C10: for nonempty `baseId` and `userId`, composing
`createUserSpecificId` with `extractBaseId` recovers `baseId` when it
contains no underscore, and otherwise recovers exactly the prefix of
`baseId` before its first underscore. -/
theorem createUserSpecificId_extractBaseId_roundtrip
    (b u : JSStr) (hb : b ≠ []) (hu : u ≠ []) :
    ('_' ∉ b → (createUserSpecificId b u).bind extractBaseId = some b) ∧
    ('_' ∈ b → (createUserSpecificId b u).bind extractBaseId =
      some (prefixBeforeChar '_' b)) := by
  have hcreate : createUserSpecificId b u = some (b ++ '_' :: u) := by
    simp [createUserSpecificId, hb, hu]
  have hmem : '_' ∈ b ++ '_' :: u := by simp
  have hne : b ++ '_' :: u ≠ [] := by simp
  have hbind : (createUserSpecificId b u).bind extractBaseId =
      extractBaseId (b ++ '_' :: u) := by rw [hcreate]; rfl
  have hcond : ¬(b ++ '_' :: u = [] ∨ '_' ∉ b ++ '_' :: u) := by simp
  have hextract : extractBaseId (b ++ '_' :: u) =
      some (prefixBeforeChar '_' (b ++ '_' :: u)) := by
    simp only [extractBaseId, if_neg hcond, jsSplitOnChar_head]
  constructor
  · intro hnb
    rw [hbind, hextract, prefixBeforeChar_append_of_not_mem hnb]
  · intro hib
    rw [hbind, hextract, prefixBeforeChar_append_of_mem (t := '_' :: u) hib]

/-- Witness for C10 at `baseId = "doc"`, `userId = "u1"` (no underscore)
and `baseId = "a_b"`, `userId = "u1"` (underscore case). -/
theorem createUserSpecificId_extractBaseId_roundtrip_witness :
    (createUserSpecificId ['d', 'o', 'c'] ['u', '1']).bind extractBaseId =
      some ['d', 'o', 'c'] ∧
    (createUserSpecificId ['a', '_', 'b'] ['u', '1']).bind extractBaseId =
      some ['a'] :=
  ⟨(createUserSpecificId_extractBaseId_roundtrip ['d', 'o', 'c'] ['u', '1']
      (by decide) (by decide)).1 (by decide),
   (createUserSpecificId_extractBaseId_roundtrip ['a', '_', 'b'] ['u', '1']
      (by decide) (by decide)).2 (by decide)⟩

/- ------------------------------------------------------------------
src/frontend/src/components/ChatPage.jsx — historyForPrompt (C9)
------------------------------------------------------------------ -/

/-- A chat message as held in the `messages` state of `ChatPage`. -/
structure ChatMessage where
  text : String
  isUser : Bool
  isError : Bool
deriving DecidableEq

/-- One history entry sent to the backend: `{ role, parts: [{ text }] }`. -/
structure HistoryTurn where
  role : String
  partsText : String
deriving DecidableEq

/-- The `.map` step of `historyForPrompt`. -/
def msgToTurn (m : ChatMessage) : HistoryTurn :=
  ⟨if m.isUser then "user" else "model", m.text⟩

/-- JS `arr.slice(-n)`: the last `min n arr.length` elements. -/
def jsSliceLast (n : Nat) (l : List α) : List α :=
  l.drop (l.length - n)

/-- `historyForPrompt` from `ChatPage.handleQuerySubmit`: filter out error
messages, keep the last 50, map to role/parts records. -/
def historyForPrompt (messages : List ChatMessage) : List HistoryTurn :=
  (jsSliceLast 50 (messages.filter (fun m => !m.isError))).map msgToTurn

/-- C9 (amended): the history sent with a query consists of the most
recent 50 non-error turns: it has at most 50 entries, is a suffix of the
non-error turns, is a subsequence of all turns in original order, and is
all the non-error turns whenever there are at most 50 of them. -/
theorem historyForPrompt_spec (messages : List ChatMessage) :
    (historyForPrompt messages).length ≤ 50 ∧
    (historyForPrompt messages) <:+
      ((messages.filter (fun m => !m.isError)).map msgToTurn) ∧
    (historyForPrompt messages).Sublist (messages.map msgToTurn) ∧
    ((messages.filter (fun m => !m.isError)).length ≤ 50 →
      historyForPrompt messages =
        (messages.filter (fun m => !m.isError)).map msgToTurn) := by
  refine ⟨?_, ?_, ?_, ?_⟩
  · simp only [historyForPrompt, jsSliceLast, List.length_map, List.length_drop]
    omega
  · simp only [historyForPrompt, jsSliceLast]
    exact (List.drop_suffix _ _).map msgToTurn
  · simp only [historyForPrompt, jsSliceLast]
    exact ((List.drop_sublist _ _).trans (List.filter_sublist _)).map msgToTurn
  · intro h
    simp only [historyForPrompt, jsSliceLast]
    rw [Nat.sub_eq_zero_of_le h, List.drop_zero]

/-- Witness for C9's conditional conjunct on a concrete 3-message list. -/
theorem historyForPrompt_spec_witness :
    historyForPrompt [⟨"hello", true, false⟩, ⟨"oops", false, true⟩,
        ⟨"answer", false, false⟩] =
      [⟨"user", "hello"⟩, ⟨"model", "answer"⟩] :=
  ((historyForPrompt_spec _).2.2.2 (by decide)).trans (by decide)

/-- A 51-message conversation whose newest message is an error message:
the oldest message `"old"` is not among the 50 most recent messages. -/
def ex51 : List ChatMessage :=
  ⟨"old", true, false⟩ ::
    (List.replicate 49 ⟨"x", true, false⟩ ++ [⟨"e", false, true⟩])

/-- C9 counterexample: the turn built from the message `"old"` is sent in
the history although `"old"` is older than the 50 most recent prior
turns (the code drops error messages before applying the 50-cap, so a
turn older than the most recent 50 survives). -/
theorem historyForPrompt_counterexample :
    msgToTurn ⟨"old", true, false⟩ ∈ historyForPrompt ex51 ∧
    msgToTurn ⟨"old", true, false⟩ ∉ (jsSliceLast 50 ex51).map msgToTurn := by
  decide

/- ------------------------------------------------------------------
src/processing/workflow.yaml defaults and
src/frontend/src/components/WorkspaceManagementPage.jsx —
populateConfigForm (C4)
------------------------------------------------------------------ -/

/-- The `defaults:` mapping of `processing/workflow.yaml`. -/
structure WorkflowDefaults where
  chunking_method : String
  chunk_size : Nat
  chunk_overlap : Nat
  embedding_model : String
  batch_size : Nat
deriving DecidableEq

/-- The default parameter set shipped with the pipeline template
(`processing/workflow.yaml`, `defaults:`). -/
def workflowDefaults : WorkflowDefaults :=
  { chunking_method := "recursive"
    chunk_size := 1000
    chunk_overlap := 200
    embedding_model := "text-multilingual-embedding-002"
    batch_size := 250 }

/-- A workspace record as returned by the API: each `config_*` field may
be absent or null (`none`). -/
structure WorkspaceRecord where
  config_chunking_method : Option String
  config_chunk_size : Option Nat
  config_chunk_overlap : Option Nat
  config_similarity_metric : Option String
  config_top_k : Option Nat
  config_hybrid_search : Option Bool
  config_embedding_model : Option String

/-- The configuration values the form resolves to. -/
structure ResolvedConfig where
  chunking_method : String
  chunk_size : Nat
  chunk_overlap : Nat
  similarity_metric : String
  top_k : Nat
  hybrid_search : Bool
  embedding_model : String
deriving DecidableEq

/-- JS `v || d` for a number: absent, null and `0` are falsy. -/
def jsOrNum (v : Option Nat) (d : Nat) : Nat :=
  match v with
  | none => d
  | some n => if n = 0 then d else n

/-- JS `v || d` for a string: absent, null and `""` are falsy. -/
def jsOrStr (v : Option String) (d : String) : String :=
  match v with
  | none => d
  | some s => if s = "" then d else s

/-- JS `v || d` for a boolean: absent, null and `false` are falsy. -/
def jsOrBool (v : Option Bool) (d : Bool) : Bool :=
  match v with
  | none => d
  | some b => b || d

/-- `populateConfigForm` from `WorkspaceManagementPage.jsx`: each field of
the workspace record falls back to the form's default when falsy. -/
def populateConfigForm (wd : WorkspaceRecord) : ResolvedConfig :=
  { chunking_method := jsOrStr wd.config_chunking_method "recursive"
    chunk_size := jsOrNum wd.config_chunk_size 1000
    chunk_overlap := jsOrNum wd.config_chunk_overlap 100
    similarity_metric := jsOrStr wd.config_similarity_metric "cosine"
    top_k := jsOrNum wd.config_top_k 4
    hybrid_search := jsOrBool wd.config_hybrid_search false
    embedding_model := jsOrStr wd.config_embedding_model
      "text-multilingual-embedding-002" }

/-- C4 counterexample: the default set shipped with the pipeline template
has `chunk_overlap = 200`, not the claimed `100`. -/
theorem workflowDefaults_chunk_overlap_counterexample :
    workflowDefaults.chunk_overlap = 200 ∧
    workflowDefaults.chunk_overlap ≠ 100 := by
  decide

/-- C4 (amended): the frontend form resolution maps each absent or null
parameter to the default set `recursive / 1000 / 100 / cosine / 4 /
false / text-multilingual-embedding-002`, and leaves present truthy
parameters unchanged (JS `||` also replaces present falsy values such as
`0`); the pipeline template's own default set uses `chunk_overlap = 200`. -/
theorem populateConfigForm_spec (wd : WorkspaceRecord) :
    (wd.config_chunking_method = none →
      (populateConfigForm wd).chunking_method = "recursive") ∧
    (wd.config_chunk_size = none → (populateConfigForm wd).chunk_size = 1000) ∧
    (wd.config_chunk_overlap = none →
      (populateConfigForm wd).chunk_overlap = 100) ∧
    (wd.config_similarity_metric = none →
      (populateConfigForm wd).similarity_metric = "cosine") ∧
    (wd.config_top_k = none → (populateConfigForm wd).top_k = 4) ∧
    (wd.config_hybrid_search = none →
      (populateConfigForm wd).hybrid_search = false) ∧
    (wd.config_embedding_model = none →
      (populateConfigForm wd).embedding_model =
        "text-multilingual-embedding-002") ∧
    (∀ s, wd.config_chunking_method = some s → s ≠ "" →
      (populateConfigForm wd).chunking_method = s) ∧
    (∀ n, wd.config_chunk_size = some n → n ≠ 0 →
      (populateConfigForm wd).chunk_size = n) ∧
    (∀ n, wd.config_chunk_overlap = some n → n ≠ 0 →
      (populateConfigForm wd).chunk_overlap = n) ∧
    (∀ s, wd.config_similarity_metric = some s → s ≠ "" →
      (populateConfigForm wd).similarity_metric = s) ∧
    (∀ n, wd.config_top_k = some n → n ≠ 0 →
      (populateConfigForm wd).top_k = n) ∧
    (∀ b, wd.config_hybrid_search = some b →
      (populateConfigForm wd).hybrid_search = b) ∧
    (∀ s, wd.config_embedding_model = some s → s ≠ "" →
      (populateConfigForm wd).embedding_model = s) ∧
    workflowDefaults.chunk_overlap = 200 := by
  refine ⟨?_, ?_, ?_, ?_, ?_, ?_, ?_, ?_, ?_, ?_, ?_, ?_, ?_, ?_, ?_⟩ <;>
    first
      | (intro h; simp [populateConfigForm, jsOrStr, jsOrNum, jsOrBool, h])
      | (intro v h hv; simp [populateConfigForm, jsOrStr, jsOrNum, jsOrBool, h, hv])
      | (intro v h; simp [populateConfigForm, jsOrBool, h])
      | decide

/-- Witness for C4 (amended) on one all-absent record and one fully
populated record. -/
theorem populateConfigForm_spec_witness :
    (populateConfigForm ⟨none, none, none, none, none, none, none⟩).chunk_overlap
        = 100 ∧
    (populateConfigForm ⟨some "markdown", some 500, some 50, some "l2",
        some 2, some true, some "gemini-embed"⟩).chunk_size = 500 :=
  ⟨(populateConfigForm_spec _).2.2.1 rfl,
   (populateConfigForm_spec _).2.2.2.2.2.2.2.2.1 500 rfl (by decide)⟩

/- ------------------------------------------------------------------
src/unnamed/part_006 (apiService.js) and AuthContext / ChatPage — bearer
credential handling (C7)
------------------------------------------------------------------ -/

/-- A decoded identity-provider credential: the `role` and `groups`
claims plus the issuance instant that distinguishes re-issued tokens. -/
structure IdToken where
  role : Option String
  groups : List String
  issuedAt : Nat
deriving DecidableEq

/-- The axios request interceptor of `apiService.js` (second revision in
`src/unnamed/part_006`): with a signed-in user it sets the Authorization
header to the token freshly fetched via `user.getIdToken(true)` (`none`
models a fetch that threw: the config is left unchanged); with no user it
deletes the Authorization header. -/
def interceptorAuthHeader (signedIn : Bool) (freshToken : Option IdToken)
    (incoming : Option IdToken) : Option IdToken :=
  if signedIn then
    match freshToken with
    | some t => some t
    | none => incoming
  else
    none

/-- The Authorization header of the `/api/query` request in
`ChatPage.handleQuerySubmit`: the `idToken` held in the auth context is
used directly; with no context token the request is not sent (outer
`none`). -/
def chatQueryAuthHeader (ctxIdToken : Option IdToken) :
    Option (Option IdToken) :=
  match ctxIdToken with
  | none => none
  | some t => some (some t)

/-- The `idToken` the auth context holds: the token fetched once when the
authentication state last changed (`AuthContext`'s `onAuthStateChanged`
handler), not refetched per request. -/
def contextTokenAfterSignIn (tokenAtSignIn : IdToken) : Option IdToken :=
  some tokenAtSignIn

/-- C7 counterexample: with a context token cached at sign-in carrying
`groups = ["G1"]` while the identity provider currently issues a token
with `groups = []` (the group was removed), the query request is sent
with the previously cached credential, so its groups claim is not the
caller's current one. -/
theorem chatQueryAuthHeader_counterexample :
    chatQueryAuthHeader (contextTokenAfterSignIn ⟨some "user", ["G1"], 1⟩) =
      some (some ⟨some "user", ["G1"], 1⟩) ∧
    (⟨some "user", ["G1"], 1⟩ : IdToken) ≠ ⟨some "user", [], 2⟩ ∧
    (⟨some "user", ["G1"], 1⟩ : IdToken).groups ≠
      (⟨some "user", [], 2⟩ : IdToken).groups := by
  decide

/-- C7 (amended): requests sent through the shared axios instance fetch
the credential fresh from the identity provider per request and carry no
Authorization header when no user is signed in; the chat query request
instead carries the token cached in the auth context at sign-in time. -/
theorem authHeader_spec (t : IdToken) (freshToken incoming : Option IdToken) :
    interceptorAuthHeader true (some t) incoming = some t ∧
    interceptorAuthHeader false freshToken incoming = none ∧
    chatQueryAuthHeader (contextTokenAfterSignIn t) = some (some t) ∧
    chatQueryAuthHeader none = none := by
  refine ⟨rfl, rfl, rfl, rfl⟩

/- ------------------------------------------------------------------
src/frontend/src/services/uploadService.js — uploadFilesDirectly (C8)
------------------------------------------------------------------ -/

/-- `ALLOWED_FILE_EXTENSIONS` from `uploadService.js`. -/
def ALLOWED_FILE_EXTENSIONS : List JSStr :=
  [".txt".data, ".pdf".data, ".doc".data, ".docx".data, ".html".data,
   ".htm".data, ".csv".data, ".xls".data, ".xlsx".data, ".ppt".data,
   ".pptx".data, ".md".data, ".json".data, ".xml".data]

/-- `'.' + file.name.split('.').pop().toLowerCase()` from
`uploadFilesDirectly`. -/
def fileExtension (name : JSStr) : JSStr :=
  '.' :: ((jsSplitOnChar '.' name).getLastD []).map Char.toLower

/-- The per-file outcome objects the upload service produces or receives
(`filename`/`status`; the human-readable message is not modelled). -/
structure UploadOutcome where
  filename : JSStr
  status : String
deriving DecidableEq

/-- `uploadFilesDirectly` from `uploadService.js`: files whose extension
is not allowed are collected into error outcomes, and if there is any
such file the whole batch is rejected (`Promise.reject`) with only those
outcomes; otherwise all files are posted and the server's per-file
results (`serverRespond`) are returned. -/
def uploadFilesDirectly (serverRespond : List JSStr → List UploadOutcome)
    (files : List JSStr) : Except (List UploadOutcome) (List UploadOutcome) :=
  let invalidFiles :=
    (files.filter (fun f => fileExtension f ∉ ALLOWED_FILE_EXTENSIONS)).map
      (fun f => ⟨f, "error"⟩)
  if invalidFiles = [] then .ok (serverRespond files)
  else .error invalidFiles

/-- C8 counterexample: a batch of `good.txt` and `bad.exe` is rejected as
a whole with a single outcome (for `bad.exe` only), so the valid sibling
`good.txt` is not uploaded and receives no outcome — one file's failure
suppresses its siblings. -/
theorem uploadFilesDirectly_counterexample :
    uploadFilesDirectly (fun fs => fs.map (fun f => ⟨f, "success"⟩))
        ["good.txt".data, "bad.exe".data] =
      .error [⟨"bad.exe".data, "error"⟩] ∧
    ([(⟨"bad.exe".data, "error"⟩ : UploadOutcome)]).length ≠
      (["good.txt".data, "bad.exe".data] : List JSStr).length :=
  ⟨rfl, by decide⟩

/-- C8 (amended): if any file of the batch has a disallowed extension the
whole batch is rejected before upload, with error outcomes exactly for
the invalid files (valid siblings receive no outcome); only when every
file passes validation is the batch uploaded, and then the server's
per-file results are returned unchanged. -/
theorem uploadFilesDirectly_spec (serverRespond : List JSStr → List UploadOutcome)
    (files : List JSStr) :
    ((∃ f ∈ files, fileExtension f ∉ ALLOWED_FILE_EXTENSIONS) →
      uploadFilesDirectly serverRespond files =
        .error ((files.filter
          (fun f => fileExtension f ∉ ALLOWED_FILE_EXTENSIONS)).map
            (fun f => ⟨f, "error"⟩)) ∧
      ((files.filter (fun f => fileExtension f ∉ ALLOWED_FILE_EXTENSIONS)).map
          (fun f => (⟨f, "error"⟩ : UploadOutcome))).length ≤ files.length) ∧
    ((∀ f ∈ files, fileExtension f ∈ ALLOWED_FILE_EXTENSIONS) →
      uploadFilesDirectly serverRespond files = .ok (serverRespond files)) := by
  constructor
  · rintro ⟨f, hf, hext⟩
    have hne : (files.filter
        (fun f => fileExtension f ∉ ALLOWED_FILE_EXTENSIONS)).map
          (fun f => (⟨f, "error"⟩ : UploadOutcome)) ≠ [] := by
      simp only [ne_eq, List.map_eq_nil_iff, List.filter_eq_nil_iff, not_forall]
      exact ⟨f, hf, by simpa using hext⟩
    refine ⟨by simp only [uploadFilesDirectly, if_neg hne], ?_⟩
    calc ((files.filter _).map (fun f => (⟨f, "error"⟩ : UploadOutcome))).length
        = (files.filter _).length := List.length_map _ _
      _ ≤ files.length := List.length_filter_le _ _
  · intro hall
    have hnil : (files.filter
        (fun f => fileExtension f ∉ ALLOWED_FILE_EXTENSIONS)).map
          (fun f => (⟨f, "error"⟩ : UploadOutcome)) = [] := by
      simp only [List.map_eq_nil_iff, List.filter_eq_nil_iff]
      intro f hf
      simpa using hall f hf
    simp only [uploadFilesDirectly, if_pos hnil]

/-- Witness for C8 (amended): the mixed batch from the counterexample's
invalid side, and an all-valid batch accepted whole. -/
theorem uploadFilesDirectly_spec_witness :
    uploadFilesDirectly (fun fs => fs.map (fun f => ⟨f, "success"⟩))
        ["a.pdf".data, "b.exe".data] =
      .error [⟨"b.exe".data, "error"⟩] ∧
    uploadFilesDirectly (fun fs => fs.map (fun f => ⟨f, "success"⟩))
        ["a.pdf".data, "b.md".data] =
      .ok [⟨"a.pdf".data, "success"⟩, ⟨"b.md".data, "success"⟩] :=
  ⟨(((uploadFilesDirectly_spec _ _).1 ⟨"b.exe".data, by decide, by decide⟩).1).trans
      rfl,
   ((uploadFilesDirectly_spec _ _).2 (by decide)).trans rfl⟩

/- ------------------------------------------------------------------
src/frontend/src/components/ChatPage.jsx — SSE stream handling in
handleQuerySubmit (C1)
------------------------------------------------------------------ -/

/-- JS `String.prototype.trim()`: whitespace stripped from both ends. -/
def jsTrim (s : JSStr) : JSStr :=
  ((s.dropWhile (·.isWhitespace)).reverse.dropWhile (·.isWhitespace)).reverse

/-- `buffer.indexOf('\n\n') >= 0` as a Bool: does the string contain two
consecutive newlines? -/
def hasNN : JSStr → Bool
  | [] => false
  | [_] => false
  | c :: d :: r => (decide (c = '\n') && decide (d = '\n')) || hasNN (d :: r)

/-- The `while ((blockEndIndex = buffer.indexOf('\n\n')) >= 0)` loop of
`handleQuerySubmit`, applied to the whole received stream: the complete
message blocks (the substrings before each `\n\n`) in order, and the
leftover buffer remaining after the last `\n\n`. -/
def splitBlocksAux : JSStr → List JSStr × JSStr
  | [] => ([], [])
  | [c] => ([], [c])
  | c :: d :: r =>
    if c = '\n' ∧ d = '\n' then
      let p := splitBlocksAux r
      ([] :: p.1, p.2)
    else
      match splitBlocksAux (d :: r) with
      | ([], l) => ([], c :: l)
      | (b :: bs, l) => ((c :: b) :: bs, l)

/-- The per-line scanning state of the block parser: `blockEventType`,
`blockDataContent` and `isInsideDataField`. -/
structure BlockScan where
  eventType : JSStr
  dataContent : JSStr
  inside : Bool
deriving DecidableEq

/-- One iteration of the `for (const line of lines)` loop of
`handleQuerySubmit`: `event:` lines set the block's event type, `data:`
lines append their payload (multi-line data joined with `\n`),
continuation lines extend an open data field, comments and other
non-blank lines close it. -/
def processLine (st : BlockScan) (line : JSStr) : BlockScan :=
  if "event:".data.isPrefixOf line then
    { eventType := jsTrim (line.drop 6), dataContent := st.dataContent,
      inside := false }
  else if "data:".data.isPrefixOf line then
    let data := line.drop 5
    let data := if " ".data.isPrefixOf data then data.drop 1 else data
    { st with
      dataContent := if st.inside then st.dataContent ++ '\n' :: data
                     else st.dataContent ++ data
      inside := true }
  else if st.inside then
    { st with dataContent := st.dataContent ++ '\n' :: line }
  else if ":".data.isPrefixOf line then
    { st with inside := false }
  else if jsTrim line ≠ [] then
    { st with inside := false }
  else st

/-- Processing of one complete block in `handleQuerySubmit`: blocks that
trim to nothing are skipped; otherwise the block's lines are scanned and
the accumulated data is appended to the answer for `message` blocks or,
for `debug` blocks, stored as the latest metadata when `JSON.parse`
succeeds (`parseOk` models `JSON.parse` succeeding on a payload). -/
def handleBlock (parseOk : JSStr → Bool) (acc : JSStr × Option JSStr)
    (block : JSStr) : JSStr × Option JSStr :=
  if jsTrim block = [] then acc
  else
    let st := (jsSplitOnChar '\n' block).foldl processLine
      ⟨"message".data, [], false⟩
    if st.eventType = "message".data then (acc.1 ++ st.dataContent, acc.2)
    else if st.eventType = "debug".data then
      if parseOk st.dataContent then (acc.1, some st.dataContent) else acc
    else acc

/-- Processing of the leftover buffer after the stream ends: `data:`
lines (after trimming) have their payload appended directly to the
answer; all other lines are ignored and no metadata is recorded. -/
def handleLeftover (acc : JSStr) (buffer : JSStr) : JSStr :=
  if jsTrim buffer = [] then acc
  else
    (jsSplitOnChar '\n' buffer).foldl
      (fun a line =>
        let t := jsTrim line
        if "data:".data.isPrefixOf t then
          let d := t.drop 5
          let d := if " ".data.isPrefixOf d then d.drop 1 else d
          a ++ d
        else a)
      acc

/-- The whole SSE stream handler of `handleQuerySubmit` applied to the
bytes received until the connection closed: returns the accumulated
answer text (`currentAiText`) and the latest debug metadata payload. -/
def handleQueryStream (parseOk : JSStr → Bool) (stream : JSStr) :
    JSStr × Option JSStr :=
  let p := splitBlocksAux stream
  let r := p.1.foldl (handleBlock parseOk) ([], none)
  (handleLeftover r.1 p.2, r.2)

/-- A well-formed frame of the query response stream: an optional
`event:` line followed by `data:` lines. -/
structure SSEBlock where
  eventType : Option JSStr
  dataLines : List JSStr

/-- Lines joined with `'\n'` (JS `lines.join('\n')`). -/
def joinLines : List JSStr → JSStr
  | [] => []
  | [l] => l
  | l :: ls => l ++ '\n' :: joinLines ls

/-- The wire form of one block: the optional `event: <type>` line
followed by one `data: <line>` line per payload line, joined by `\n`. -/
def renderBlock (b : SSEBlock) : JSStr :=
  joinLines
    ((match b.eventType with
      | some t => ["event: ".data ++ t]
      | none => []) ++
     b.dataLines.map (fun d => "data: ".data ++ d))

/-- A stream in which every block, the last included, is terminated by a
blank line. -/
def renderStream (blocks : List SSEBlock) : JSStr :=
  (blocks.map (fun b => renderBlock b ++ ['\n', '\n'])).flatten

/-- The payload a block carries: its data lines reassembled with `\n`. -/
def payload (b : SSEBlock) : JSStr := joinLines b.dataLines

/-- The event type a block resolves to (`message` when no `event:` line
is present). -/
def resolvedEvent (b : SSEBlock) : JSStr :=
  match b.eventType with
  | none => "message".data
  | some t => t

/-- Is this a `message` block (explicitly tagged or untagged)? -/
def isMessageB (b : SSEBlock) : Bool :=
  match b.eventType with
  | none => true
  | some t => decide (t = "message".data)

/-- Is this a `debug` block? -/
def isDebugB (b : SSEBlock) : Bool :=
  match b.eventType with
  | none => false
  | some t => decide (t = "debug".data)

/-- What the specification promises the handler accumulates: the
concatenation of the payloads of the `message` blocks. -/
def expectedAnswer (blocks : List SSEBlock) : JSStr :=
  ((blocks.filter isMessageB).map payload).flatten

/-- The payload of the last `debug` block of the stream, if any. -/
def lastDebugPayload (blocks : List SSEBlock) : Option JSStr :=
  ((blocks.filter isDebugB).map payload).getLast?

/-- Well-formedness of a frame: at least one data line, no newline
inside a data line, and the event kind is absent, `message` or `debug`. -/
def WellFormedBlock (b : SSEBlock) : Prop :=
  b.dataLines ≠ [] ∧ (∀ l ∈ b.dataLines, '\n' ∉ l) ∧
    (b.eventType = none ∨ b.eventType = some ("message".data) ∨
      b.eventType = some ("debug".data))

instance (b : SSEBlock) : Decidable (WellFormedBlock b) := by
  unfold WellFormedBlock; infer_instance

/-- The individual wire lines of a block, before joining with `\n`. -/
def renderLines (b : SSEBlock) : List JSStr :=
  (match b.eventType with
   | some t => ["event: ".data ++ t]
   | none => []) ++
  b.dataLines.map (fun d => "data: ".data ++ d)

theorem renderBlock_eq_joinLines (b : SSEBlock) :
    renderBlock b = joinLines (renderLines b) := rfl

theorem joinLines_cons_eq (d : JSStr) (ds : List JSStr) :
    joinLines (d :: ds) = d ++ (ds.map (fun x => '\n' :: x)).flatten := by
  induction ds generalizing d with
  | nil => simp [joinLines]
  | cons e es ih => simp [joinLines, ih e]

theorem jsSplitOnChar_of_not_mem {c : Char} {s : JSStr} (h : c ∉ s) :
    jsSplitOnChar c s = [s] := by
  induction s with
  | nil => simp [jsSplitOnChar]
  | cons a rest ih =>
    have ha : a ≠ c := fun hc => h (by simp [hc])
    have hrest : c ∉ rest := fun hc => h (by simp [hc])
    simp only [jsSplitOnChar, ih hrest]
    simp [ha.symm, fun hc => ha hc]

theorem jsSplitOnChar_append_sep {c : Char} {l t : JSStr} (h : c ∉ l) :
    jsSplitOnChar c (l ++ c :: t) = l :: jsSplitOnChar c t := by
  induction l with
  | nil =>
    simp only [List.nil_append, jsSplitOnChar]
    cases ht : jsSplitOnChar c t with
    | nil => exact absurd ht (jsSplitOnChar_ne_nil c t)
    | cons f fs => simp
  | cons a l' ih =>
    have ha : a ≠ c := fun hc => h (by simp [hc])
    have hl' : c ∉ l' := fun hc => h (by simp [hc])
    have hrw := ih hl'
    rw [List.cons_append]
    rw [show jsSplitOnChar c (a :: (l' ++ c :: t)) =
        (match jsSplitOnChar c (l' ++ c :: t) with
         | [] => [[]]
         | f :: fs => if a = c then [] :: f :: fs else (a :: f) :: fs)
      from rfl, hrw]
    simp [ha]

theorem jsSplitOnChar_joinLines {L : List JSStr} (hnl : ∀ l ∈ L, '\n' ∉ l)
    (hne : L ≠ []) : jsSplitOnChar '\n' (joinLines L) = L := by
  induction L with
  | nil => exact absurd rfl hne
  | cons l ls ih =>
    cases ls with
    | nil =>
      simp only [joinLines]
      exact jsSplitOnChar_of_not_mem (hnl l (by simp))
    | cons m ms =>
      have hstep : joinLines (l :: m :: ms) = l ++ '\n' :: joinLines (m :: ms) :=
        rfl
      rw [hstep, jsSplitOnChar_append_sep (hnl l (by simp))]
      rw [ih (fun x hx => hnl x (by simp [hx])) (by simp)]

theorem hasNN_of_not_mem {s : JSStr} (h : '\n' ∉ s) : hasNN s = false := by
  induction s with
  | nil => simp [hasNN]
  | cons a rest ih =>
    have ha : a ≠ '\n' := fun hc => h (by simp [hc])
    have hrest : '\n' ∉ rest := fun hc => h (by simp [hc])
    cases rest with
    | nil => simp [hasNN]
    | cons b r => simp [hasNN, ha, ih hrest]

theorem hasNN_append {l s : JSStr} (hl : '\n' ∉ l) (hs : hasNN s = false) :
    hasNN (l ++ s) = false := by
  induction l with
  | nil => simpa using hs
  | cons a l' ih =>
    have ha : a ≠ '\n' := fun hc => hl (by simp [hc])
    have hl' : '\n' ∉ l' := fun hc => hl (by simp [hc])
    have htail : hasNN (l' ++ s) = false := ih hl'
    rw [List.cons_append]
    cases hl's : l' ++ s with
    | nil => simp [hasNN]
    | cons b r =>
      rw [hl's] at htail
      simp [hasNN, ha, htail]

theorem joinLines_head_cons (c : Char) (l : JSStr) (ls : List JSStr) :
    ∃ r, joinLines ((c :: l) :: ls) = c :: r := by
  cases ls with
  | nil => exact ⟨l, rfl⟩
  | cons m ms => exact ⟨l ++ '\n' :: joinLines (m :: ms), rfl⟩

theorem hasNN_joinLines_append {L : List JSStr}
    (h : ∀ l ∈ L, l ≠ [] ∧ '\n' ∉ l) (hne : L ≠ []) :
    hasNN (joinLines L ++ ['\n']) = false := by
  induction L with
  | nil => exact absurd rfl hne
  | cons l ls ih =>
    cases ls with
    | nil =>
      simp only [joinLines]
      exact hasNN_append (h l (by simp)).2 (by simp [hasNN])
    | cons m ms =>
      have hstep : joinLines (l :: m :: ms) ++ ['\n'] =
          l ++ '\n' :: (joinLines (m :: ms) ++ ['\n']) := by
        show (l ++ '\n' :: joinLines (m :: ms)) ++ ['\n'] = _
        simp
      rw [hstep]
      refine hasNN_append (h l (by simp)).2 ?_
      obtain ⟨hmne, hmnl⟩ := h m (by simp)
      obtain ⟨mc, ml, hm⟩ : ∃ mc ml, m = mc :: ml := by
        cases m with
        | nil => exact absurd rfl hmne
        | cons mc ml => exact ⟨mc, ml, rfl⟩
      obtain ⟨r, hr⟩ := joinLines_head_cons mc ml ms
      have hmc : mc ≠ '\n' := by
        intro hc
        exact hmnl (by simp [hm, hc])
      have htail : hasNN (joinLines (m :: ms) ++ ['\n']) = false :=
        ih (fun x hx => h x (by simp [hx])) (by simp)
      rw [hm] at htail ⊢
      rw [hr] at htail ⊢
      simpa [hasNN, hmc] using htail

theorem splitBlocksAux_prefix (s : JSStr) :
    ∀ p : JSStr, hasNN (p ++ ['\n']) = false →
      splitBlocksAux (p ++ '\n' :: '\n' :: s) =
        (p :: (splitBlocksAux s).1, (splitBlocksAux s).2) := by
  intro p
  induction p with
  | nil =>
    intro _
    simp [splitBlocksAux]
  | cons c p' ih =>
    intro hp
    cases p' with
    | nil =>
      have hc : c ≠ '\n' := by
        intro hc
        simp [hc, hasNN] at hp
      show splitBlocksAux (c :: '\n' :: '\n' :: s) = _
      have hrec : splitBlocksAux ('\n' :: '\n' :: s) =
          ([] :: (splitBlocksAux s).1, (splitBlocksAux s).2) := by
        simp [splitBlocksAux]
      simp [splitBlocksAux, hc, hrec]
    | cons c' p'' =>
      have hp2 : hasNN (c :: c' :: (p'' ++ ['\n'])) = false := by
        simpa using hp
      simp only [hasNN, Bool.or_eq_false_iff] at hp2
      obtain ⟨hcc', htail⟩ := hp2
      have hcc : ¬(c = '\n' ∧ c' = '\n') := by
        intro hand
        simp [hand.1, hand.2] at hcc'
      have hp' : hasNN ((c' :: p'') ++ ['\n']) = false := by
        simpa using htail
      have hrec : splitBlocksAux ((c' :: p'') ++ '\n' :: '\n' :: s) =
          ((c' :: p'') :: (splitBlocksAux s).1, (splitBlocksAux s).2) := ih hp'
      show splitBlocksAux (c :: c' :: (p'' ++ '\n' :: '\n' :: s)) = _
      have hin : c' :: (p'' ++ '\n' :: '\n' :: s) =
          (c' :: p'') ++ '\n' :: '\n' :: s := rfl
      simp only [splitBlocksAux, if_neg hcc, hin, hrec]


theorem processLine_data (st : BlockScan) (d : JSStr) :
    processLine st ("data: ".data ++ d) =
      ⟨st.eventType,
       if st.inside then st.dataContent ++ '\n' :: d else st.dataContent ++ d,
       true⟩ := by
  cases hin : st.inside <;> simp [processLine, hin]

theorem foldl_dataLines (ds : List JSStr) :
    ∀ st : BlockScan, st.inside = true →
      (ds.map (fun d => "data: ".data ++ d)).foldl processLine st =
        ⟨st.eventType,
         st.dataContent ++ (ds.map (fun d => '\n' :: d)).flatten, true⟩ := by
  induction ds with
  | nil =>
    intro st h
    cases st with
    | mk et dc ins =>
      simp only at h
      simp [h]
  | cons d ds' ih =>
    intro st h
    rw [List.map_cons, List.foldl_cons, processLine_data, if_pos h,
      ih ⟨st.eventType, st.dataContent ++ '\n' :: d, true⟩ rfl]
    simp

theorem foldl_dataLines_start (et : JSStr) (d : JSStr) (ds : List JSStr) :
    (((d :: ds).map (fun x => "data: ".data ++ x)).foldl processLine
        ⟨et, [], false⟩) = ⟨et, joinLines (d :: ds), true⟩ := by
  rw [List.map_cons, List.foldl_cons, processLine_data]
  simp only [Bool.false_eq_true, if_false, List.nil_append]
  rw [foldl_dataLines ds ⟨et, d, true⟩ rfl, joinLines_cons_eq]



theorem processLine_event (st : BlockScan) (t : JSStr) :
    processLine st ("event: ".data ++ t) =
      ⟨jsTrim (' ' :: t), st.dataContent, false⟩ := rfl

theorem renderLines_wf {b : SSEBlock} (hwf : WellFormedBlock b) :
    (∀ l ∈ renderLines b, l ≠ [] ∧ '\n' ∉ l) ∧ renderLines b ≠ [] := by
  obtain ⟨hne, hnl, hkind⟩ := hwf
  constructor
  · intro l hl
    simp only [renderLines, List.mem_append] at hl
    rcases hl with hl | hl
    · rcases hkind with h | h | h <;> rw [h] at hl <;> simp at hl
      · rw [hl]
        refine ⟨by simp, ?_⟩
        decide
      · rw [hl]
        refine ⟨by simp, ?_⟩
        decide
    · obtain ⟨d, hd, rfl⟩ := List.mem_map.mp hl
      refine ⟨by simp, ?_⟩
      intro hmem
      rcases List.mem_append.mp hmem with h | h
      · revert h; decide
      · exact hnl d hd h
  · simp only [renderLines, ne_eq]
    intro hcontra
    have h2 : b.dataLines.map (fun d => "data: ".data ++ d) = [] :=
      (List.append_eq_nil.mp hcontra).2
    simp only [List.map_eq_nil_iff] at h2
    exact hne h2

theorem foldl_processLine_render {b : SSEBlock} (hwf : WellFormedBlock b) :
    (jsSplitOnChar '\n' (renderBlock b)).foldl processLine
        ⟨"message".data, [], false⟩ = ⟨resolvedEvent b, payload b, true⟩ := by
  obtain ⟨hne, hnl, hkind⟩ := hwf
  have hlines := renderLines_wf (b := b) ⟨hne, hnl, hkind⟩
  rw [renderBlock_eq_joinLines,
    jsSplitOnChar_joinLines (fun l hl => (hlines.1 l hl).2) hlines.2]
  obtain ⟨d, ds, hdl⟩ : ∃ d ds, b.dataLines = d :: ds := by
    cases hd : b.dataLines with
    | nil => exact absurd hd hne
    | cons d ds => exact ⟨d, ds, rfl⟩
  rcases hkind with h | h | h
  · rw [show renderLines b = b.dataLines.map (fun x => "data: ".data ++ x) by
      simp [renderLines, h]]
    rw [hdl, foldl_dataLines_start]
    simp [resolvedEvent, payload, h, hdl]
  · rw [show renderLines b = ("event: ".data ++ "message".data) ::
        b.dataLines.map (fun x => "data: ".data ++ x) by
      simp [renderLines, h]]
    rw [List.foldl_cons, processLine_event, hdl]
    rw [show jsTrim (' ' :: "message".data) = "message".data from rfl]
    rw [foldl_dataLines_start]
    simp [resolvedEvent, payload, h, hdl]
  · rw [show renderLines b = ("event: ".data ++ "debug".data) ::
        b.dataLines.map (fun x => "data: ".data ++ x) by
      simp [renderLines, h]]
    rw [List.foldl_cons, processLine_event, hdl]
    rw [show jsTrim (' ' :: "debug".data) = "debug".data from rfl]
    rw [foldl_dataLines_start]
    simp [resolvedEvent, payload, h, hdl]

theorem jsTrim_cons_ne_nil {c : Char} (hc : c.isWhitespace = false)
    (s : JSStr) : jsTrim (c :: s) ≠ [] := by
  simp only [jsTrim, List.dropWhile_cons, hc, Bool.false_eq_true, if_false]
  intro h
  rw [List.reverse_eq_nil_iff, List.dropWhile_eq_nil_iff] at h
  have := h c (by simp)
  rw [hc] at this
  cases this

theorem renderBlock_trim_ne_nil {b : SSEBlock} (hwf : WellFormedBlock b) :
    jsTrim (renderBlock b) ≠ [] := by
  obtain ⟨hne, hnl, hkind⟩ := hwf
  obtain ⟨d, ds, hdl⟩ : ∃ d ds, b.dataLines = d :: ds := by
    cases hd : b.dataLines with
    | nil => exact absurd hd hne
    | cons d ds => exact ⟨d, ds, rfl⟩
  rw [renderBlock_eq_joinLines]
  rcases hkind with h | h | h
  · rw [show renderLines b = b.dataLines.map (fun x => "data: ".data ++ x) by
      simp [renderLines, h]]
    rw [hdl, List.map_cons,
      show "data: ".data ++ d = 'd' :: ("ata: ".data ++ d) from rfl]
    obtain ⟨r, hr⟩ := joinLines_head_cons 'd' ("ata: ".data ++ d)
      (ds.map (fun x => "data: ".data ++ x))
    rw [hr]
    exact jsTrim_cons_ne_nil (by decide) r
  · rw [show renderLines b = ("event: ".data ++ "message".data) ::
        b.dataLines.map (fun x => "data: ".data ++ x) by
      simp [renderLines, h]]
    rw [show "event: ".data ++ "message".data =
      'e' :: ("vent: ".data ++ "message".data) from rfl]
    obtain ⟨r, hr⟩ := joinLines_head_cons 'e' ("vent: ".data ++ "message".data)
      (b.dataLines.map (fun x => "data: ".data ++ x))
    rw [hr]
    exact jsTrim_cons_ne_nil (by decide) r
  · rw [show renderLines b = ("event: ".data ++ "debug".data) ::
        b.dataLines.map (fun x => "data: ".data ++ x) by
      simp [renderLines, h]]
    rw [show "event: ".data ++ "debug".data =
      'e' :: ("vent: ".data ++ "debug".data) from rfl]
    obtain ⟨r, hr⟩ := joinLines_head_cons 'e' ("vent: ".data ++ "debug".data)
      (b.dataLines.map (fun x => "data: ".data ++ x))
    rw [hr]
    exact jsTrim_cons_ne_nil (by decide) r

theorem wf_kind {b : SSEBlock} (hwf : WellFormedBlock b) :
    (isMessageB b = true ∧ isDebugB b = false) ∨
      (isMessageB b = false ∧ isDebugB b = true) := by
  obtain ⟨-, -, hkind⟩ := hwf
  rcases hkind with h | h | h
  · left
    constructor <;> (first | rw [isMessageB, h] | rw [isDebugB, h])
  · left
    constructor <;> (first | rw [isMessageB, h] | rw [isDebugB, h]) <;> decide
  · right
    constructor <;> (first | rw [isMessageB, h] | rw [isDebugB, h]) <;> decide

theorem resolvedEvent_of_message {b : SSEBlock}
    (hm : isMessageB b = true) : resolvedEvent b = "message".data := by
  cases hev : b.eventType with
  | none => simp [resolvedEvent, hev]
  | some t =>
    rw [isMessageB, hev] at hm
    simp only [decide_eq_true_eq] at hm
    simp [resolvedEvent, hev, hm]

theorem resolvedEvent_of_debug {b : SSEBlock}
    (hd : isDebugB b = true) : resolvedEvent b = "debug".data := by
  cases hev : b.eventType with
  | none => rw [isDebugB, hev] at hd; cases hd
  | some t =>
    rw [isDebugB, hev] at hd
    simp only [decide_eq_true_eq] at hd
    simp [resolvedEvent, hev, hd]

theorem handleBlock_render (pk : JSStr → Bool) (acc : JSStr × Option JSStr)
    {b : SSEBlock} (hwf : WellFormedBlock b) :
    handleBlock pk acc (renderBlock b) =
      if isMessageB b = true then (acc.1 ++ payload b, acc.2)
      else if pk (payload b) = true then (acc.1, some (payload b)) else acc := by
  have htrim := renderBlock_trim_ne_nil hwf
  have hscan := foldl_processLine_render hwf
  simp only [handleBlock, if_neg htrim, hscan]
  rcases wf_kind hwf with ⟨hm, hd⟩ | ⟨hm, hd⟩
  · rw [resolvedEvent_of_message hm]
    simp [hm]
  · rw [resolvedEvent_of_debug hd]
    have hne : ("debug".data : JSStr) ≠ "message".data := by decide
    simp [hm, hne]

theorem getLast?_some_of_cons (y : α) (l : List α) :
    ∃ z, (y :: l).getLast? = some z := by
  induction l generalizing y with
  | nil => exact ⟨y, rfl⟩
  | cons w l'' ih =>
    rw [List.getLast?_cons_cons]
    exact ih w

theorem getLast?_cons_or (x : α) (l : List α) :
    (x :: l).getLast? = (l.getLast?).or (some x) := by
  cases l with
  | nil => rfl
  | cons y l' =>
    rw [List.getLast?_cons_cons]
    obtain ⟨z, hz⟩ := getLast?_some_of_cons y l'
    rw [hz]
    rfl

theorem or_some_or (x : Option α) (p : α) (m : Option α) :
    (x.or (some p)).or m = x.or (some p) := by
  cases x <;> rfl

theorem foldl_handleBlock (pk : JSStr → Bool) :
    ∀ (blocks : List SSEBlock) (a : JSStr) (m : Option JSStr),
      (∀ b ∈ blocks, WellFormedBlock b) →
      (∀ b ∈ blocks, isDebugB b = true → pk (payload b) = true) →
      (blocks.map renderBlock).foldl (handleBlock pk) (a, m) =
        (a ++ expectedAnswer blocks, (lastDebugPayload blocks).or m) := by
  intro blocks
  induction blocks with
  | nil =>
    intro a m _ _
    simp [expectedAnswer, lastDebugPayload, Option.or]
  | cons b bs ih =>
    intro a m hwf hpk
    rw [List.map_cons, List.foldl_cons,
      handleBlock_render pk (a, m) (hwf b (by simp))]
    rcases wf_kind (hwf b (by simp)) with ⟨hm, hd⟩ | ⟨hm, hd⟩
    · rw [if_pos hm]
      rw [ih (a ++ payload b, m).1 (a ++ payload b, m).2
        (fun x hx => hwf x (by simp [hx]))
        (fun x hx hdx => hpk x (by simp [hx]) hdx)]
      simp [expectedAnswer, lastDebugPayload, List.filter_cons, hm, hd,
        List.append_assoc]
    · rw [if_neg (by simp [hm]), if_pos (hpk b (by simp) hd)]
      rw [ih (a, some (payload b)).1 (a, some (payload b)).2
        (fun x hx => hwf x (by simp [hx]))
        (fun x hx hdx => hpk x (by simp [hx]) hdx)]
      have h1 : expectedAnswer (b :: bs) = expectedAnswer bs := by
        simp [expectedAnswer, List.filter_cons, hm]
      have h2 : lastDebugPayload (b :: bs) =
          (lastDebugPayload bs).or (some (payload b)) := by
        simp only [lastDebugPayload, List.filter_cons, hd, if_true,
          List.map_cons]
        exact getLast?_cons_or _ _
      rw [h1, h2, or_some_or]

theorem splitBlocksAux_renderStream (blocks : List SSEBlock)
    (hwf : ∀ b ∈ blocks, WellFormedBlock b) :
    splitBlocksAux (renderStream blocks) = (blocks.map renderBlock, []) := by
  induction blocks with
  | nil => rfl
  | cons b bs ih =>
    have hb := hwf b (by simp)
    have hlines := renderLines_wf hb
    have hstep : renderStream (b :: bs) =
        renderBlock b ++ '\n' :: '\n' :: renderStream bs := by
      simp [renderStream, List.append_assoc]
    rw [hstep, splitBlocksAux_prefix _ (renderBlock b)
      (by rw [renderBlock_eq_joinLines]
          exact hasNN_joinLines_append hlines.1 hlines.2),
      ih (fun x hx => hwf x (by simp [hx]))]
    simp

/-- C1 (amended): for a well-formed query response stream in which every
block (the last included) is terminated by a blank line, the handler
appends to the answer exactly the concatenation of the payloads of the
`message` blocks (multi-line payloads reassembled by joining continuation
`data:` lines with a newline) and records as the final metadata the
payload of the last `debug` block received before the connection closes,
provided every debug payload parses as JSON.  When the final block is
merely separated and not terminated, its data lines are instead appended
to the answer by the leftover-buffer scan (see the counterexample). -/
theorem handleQueryStream_renderStream (pk : JSStr → Bool)
    (blocks : List SSEBlock)
    (hwf : ∀ b ∈ blocks, WellFormedBlock b)
    (hpk : ∀ b ∈ blocks, isDebugB b = true → pk (payload b) = true) :
    handleQueryStream pk (renderStream blocks) =
      (expectedAnswer blocks, lastDebugPayload blocks) := by
  simp only [handleQueryStream, splitBlocksAux_renderStream blocks hwf]
  rw [foldl_handleBlock pk blocks [] none hwf hpk]
  have hor : (lastDebugPayload blocks).or none = lastDebugPayload blocks := by
    cases lastDebugPayload blocks <;> rfl
  simp [handleLeftover, jsTrim, hor]

/-- Witness for C1 (amended) on the concrete terminated stream
`event: message / data: hi` then `event: debug / data: 1`. -/
theorem handleQueryStream_renderStream_witness :
    handleQueryStream (fun _ => true)
      (renderStream [⟨some "message".data, ["hi".data]⟩,
        ⟨some "debug".data, ["1".data]⟩]) = ("hi".data, some ("1".data)) := by
  have h := handleQueryStream_renderStream (fun _ => true)
    [⟨some "message".data, ["hi".data]⟩, ⟨some "debug".data, ["1".data]⟩]
    (by decide) (by decide)
  rw [h]
  decide

/-- C1 counterexample: in a stream whose two well-formed blocks are
separated by a blank line but whose last (`debug`) block is not followed
by one, the handler never records the debug metadata and instead appends
the debug payload to the answer, contradicting the claim, which predicts
answer `"hi"` with metadata `"1"`. -/
theorem handleQueryStream_counterexample :
    handleQueryStream (fun _ => true)
      (renderBlock ⟨some "message".data, ["hi".data]⟩ ++ '\n' :: '\n' ::
        renderBlock ⟨some "debug".data, ["1".data]⟩) = ("hi1".data, none) ∧
    (("hi1".data, (none : Option JSStr))) ≠ ("hi".data, some ("1".data)) := by
  exact ⟨by decide, by decide⟩

/- ------------------------------------------------------------------
Chunking stage (C3).  The implementation (`chunk_text.main`, function
`chunk_documents`, invoked by the `chunk_text` step of
`processing/workflow.yaml`) is not part of the repository snapshot.
------------------------------------------------------------------ -/

/-- Fuel-indexed window splitter: emit a `chunk_size` window and advance
by `chunk_size - chunk_overlap` until the remaining text fits in one
window. -/
def chunkRec (fuel : Nat) (S O : Nat) (s : List Char) : List (List Char) :=
  match fuel with
  | 0 => [s]
  | fuel + 1 =>
    if s.length ≤ S ∨ S ≤ O then [s]
    else s.take S :: chunkRec fuel S O (s.drop (S - O))

/-- Modelled from the spec: the chunking stage for
`chunking_method=recursive` is missing from the snapshot; per §4.1,
adjacent chunks overlap by exactly `chunk_overlap` characters, the final
chunk may be shorter, and the output is an ordered list (the chunk index
is the list position). -/
def chunk_documents (S O : Nat) (s : List Char) : List (List Char) :=
  chunkRec s.length S O s

theorem chunkRec_short (fuel S O : Nat) (s : List Char) (h : s.length ≤ S) :
    chunkRec fuel S O s = [s] := by
  cases fuel with
  | zero => rfl
  | succ n => simp [chunkRec, h]

theorem chunkRec_step (fuel S O : Nat) (s : List Char)
    (h1 : S < s.length) (h2 : O < S) :
    chunkRec (fuel + 1) S O s =
      s.take S :: chunkRec fuel S O (s.drop (S - O)) := by
  simp only [chunkRec]
  rw [if_neg]
  omega

theorem chunkRec_head_take (S O : Nat) (hOS : O ≤ S) (n : Nat)
    (s' y : List Char) (h : (chunkRec n S O s').head? = some y) :
    y.take O = s'.take O := by
  cases n with
  | zero =>
    simp [chunkRec] at h
    rw [← h]
  | succ m =>
    simp only [chunkRec] at h
    by_cases hg : s'.length ≤ S ∨ S ≤ O
    · rw [if_pos hg] at h
      simp at h
      rw [← h]
    · rw [if_neg hg] at h
      simp at h
      rw [← h, List.take_take, Nat.min_eq_left hOS]

theorem chunkRec_chain (S O : Nat) (hO : O < S) :
    ∀ (fuel : Nat) (s : List Char),
      List.Chain' (fun a b => a.length = S ∧ a.drop (S - O) = b.take O)
        (chunkRec fuel S O s) := by
  intro fuel
  induction fuel with
  | zero => intro s; simp [chunkRec]
  | succ n ih =>
    intro s
    by_cases hg : s.length ≤ S ∨ S ≤ O
    · simp [chunkRec, hg]
    · push_neg at hg
      rw [chunkRec_step n S O s (by omega) hO]
      rw [List.chain'_cons']
      refine ⟨?_, ih _⟩
      intro y hy
      have hhead : (chunkRec n S O (s.drop (S - O))).head? = some y := hy
      have hty := chunkRec_head_take S O (le_of_lt hO) n _ y hhead
      constructor
      · rw [List.length_take]; omega
      · rw [List.drop_take, hty]
        congr 1
        omega

/-- The 2,400-character document of the end-to-end scenario, chunked with
`chunk_size=1000`, `chunk_overlap=100`. -/
theorem chunk_documents_2400 :
    chunk_documents 1000 100 (List.replicate 2400 'a') =
      [List.replicate 1000 'a', List.replicate 1000 'a',
       List.replicate 600 'a'] := by
  unfold chunk_documents
  rw [List.length_replicate]
  show chunkRec (2399 + 1) 1000 100 (List.replicate 2400 'a') = _
  rw [chunkRec_step _ _ _ _ (by rw [List.length_replicate]; norm_num)
    (by norm_num)]
  rw [List.take_replicate, List.drop_replicate]
  norm_num
  show chunkRec (2398 + 1) 1000 100 (List.replicate 1500 'a') = _
  rw [chunkRec_step _ _ _ _ (by rw [List.length_replicate]; norm_num)
    (by norm_num)]
  rw [List.take_replicate, List.drop_replicate]
  norm_num
  rw [chunkRec_short _ _ _ _ (by rw [List.length_replicate]; norm_num)]

/-- C3 counterexample: a 2,400-character document with `chunk_size=1000`
and `chunk_overlap=100` yields chunks of lengths `[1000, 1000, 600]`
(chunk `i+1` starts `chunk_size - chunk_overlap = 900` characters after
chunk `i`), not the claimed `[1000, 1000, 400]`. -/
theorem chunk_documents_counterexample :
    (chunk_documents 1000 100 (List.replicate 2400 'a')).map List.length =
      [1000, 1000, 600] ∧
    ([1000, 1000, 600] : List Nat) ≠ [1000, 1000, 400] := by
  constructor
  · rw [chunk_documents_2400]
    simp
  · decide

/-- C3 (amended): for every document chunked with the recursive method at
chunk size `S` and overlap `O < S`, every chunk with a successor has
length exactly `S` and its trailing `O` characters equal the leading `O`
characters of the next chunk (the final chunk may be shorter); the chunk
list is a deterministic function of the input and parameters; and the
2,400-character plain-text document with `S=1000`, `O=100` yields exactly
3 chunks of lengths `[1000, 1000, 600]` at chunk indices 0, 1, 2. -/
theorem chunk_documents_spec (S O : Nat) (hO : O < S) (s : List Char) :
    List.Chain' (fun a b => a.length = S ∧ a.drop (S - O) = b.take O)
      (chunk_documents S O s) ∧
    (chunk_documents 1000 100 (List.replicate 2400 'a')).map List.length =
      [1000, 1000, 600] := by
  refine ⟨chunkRec_chain S O hO s.length s, ?_⟩
  rw [chunk_documents_2400]
  simp

/-- Witness for C3 (amended) on the 5-character document `"abcde"` with
`S=3`, `O=1`. -/
theorem chunk_documents_spec_witness :
    List.Chain' (fun a b => a.length = 3 ∧ a.drop (3 - 1) = b.take 1)
      (chunk_documents 3 1 "abcde".data) :=
  (chunk_documents_spec 3 1 (by decide) "abcde".data).1

/- ------------------------------------------------------------------
Storage stage (C2, C6).  The implementation (`store_data.main`, function
`store_embedded_documents`, invoked by the `store_data` step of
`processing/workflow.yaml`) is not part of the repository snapshot; the
tables and their constraints follow the schema in `README.md`
(`documents` with the unique index `documents_gcs_path_key` on
`gcs_path`, `document_chunks`, `document_vectors` with `ON DELETE
CASCADE` from their chunk).
------------------------------------------------------------------ -/

structure DocRow where
  doc_id : Nat
  gcs_path : String
  status : String
deriving DecidableEq

structure ChunkRow where
  chunk_id : Nat
  document_id : Nat
  chunk_index : Nat
  text : String
deriving DecidableEq

structure VecRow where
  vector_id : Nat
  chunk_id : Nat
  embedding_model : String
  vector : List Int
deriving DecidableEq

structure StoreState where
  documents : List DocRow
  document_chunks : List ChunkRow
  document_vectors : List VecRow
  next_id : Nat
deriving DecidableEq

inductive StoreError where
  | dimensionMismatch
deriving DecidableEq

/-- Insertion of the chunk rows and their vectors (one vector per chunk,
ids drawn from a fresh id counter two at a time). -/
def insertPieces (docId : Nat) (model : String) :
    Nat → Nat → List (String × List Int) → List ChunkRow × List VecRow
  | _, _, [] => ([], [])
  | base, idx, (t, v) :: rest =>
    let r := insertPieces docId model (base + 2) (idx + 1) rest
    (⟨base, docId, idx, t⟩ :: r.1, ⟨base + 1, base, model, v⟩ :: r.2)

/-- Modelled from the spec: the storage stage (`store_data.main`) is
missing from the snapshot; per §4.1 Storage it runs in one transaction:
reject on any vector whose dimensionality differs from the configured
column dimension, upsert the Document row for the storage location to
`stored` (the unique index on `gcs_path` makes the existing row the
upsert target), delete-then-insert the chunk set by document id, cascade
the deleted chunks' vectors, and insert the new vectors. -/
def store_embedded_documents (dim : Nat) (model : String) (gcsPath : String)
    (pieces : List (String × List Int)) (st : StoreState) :
    Except StoreError StoreState :=
  if pieces.any (fun q => q.2.length ≠ dim) then .error .dimensionMismatch
  else
    let found := st.documents.find? (fun d => d.gcs_path = gcsPath)
    let docId := match found with
      | some d => d.doc_id
      | none => st.next_id
    let documents := match found with
      | some _ => st.documents.map (fun d =>
          if d.doc_id = docId then { d with status := "stored" } else d)
      | none => st.documents ++ [⟨st.next_id, gcsPath, "stored"⟩]
    let pr := insertPieces docId model (st.next_id + 1) 0 pieces
    .ok { documents := documents
          document_chunks :=
            st.document_chunks.filter (fun c => c.document_id ≠ docId) ++ pr.1
          document_vectors :=
            (st.document_vectors.filter (fun v =>
              v.chunk_id ∉ (st.document_chunks.filter
                (fun c => c.document_id = docId)).map
                  (fun c => c.chunk_id))) ++ pr.2
          next_id := st.next_id + 1 + 2 * pieces.length }

/-- The stage runner: a failed storage transaction is aborted and leaves
the previous stored state in place. -/
def runStore (dim : Nat) (model : String) (gcsPath : String)
    (pieces : List (String × List Int)) (st : StoreState) : StoreState :=
  match store_embedded_documents dim model gcsPath pieces st with
  | .ok st' => st'
  | .error _ => st

def docsWithPath (st : StoreState) (p : String) : List DocRow :=
  st.documents.filter (fun d => d.gcs_path = p)

def chunksOfDoc (st : StoreState) (id : Nat) : List ChunkRow :=
  st.document_chunks.filter (fun c => c.document_id = id)

def vectorsOfChunk (st : StoreState) (cid : Nat) : List VecRow :=
  st.document_vectors.filter (fun v => v.chunk_id = cid)

/-- Well-formedness of a stored state: `gcs_path` values are unique
(the `documents_gcs_path_key` index) and all row ids are below the fresh
id counter. -/
def StoreWF (st : StoreState) : Prop :=
  (st.documents.map (fun d => d.gcs_path)).Nodup ∧
  (∀ c ∈ st.document_chunks, c.chunk_id < st.next_id) ∧
  (∀ v ∈ st.document_vectors, v.chunk_id < st.next_id)

theorem insertPieces_bounds (docId : Nat) (model : String) :
    ∀ (pieces : List (String × List Int)) (base idx : Nat),
      (∀ c ∈ (insertPieces docId model base idx pieces).1,
        base ≤ c.chunk_id ∧ c.chunk_id < base + 2 * pieces.length) ∧
      (∀ v ∈ (insertPieces docId model base idx pieces).2,
        base ≤ v.chunk_id ∧ v.chunk_id < base + 2 * pieces.length) := by
  intro pieces
  induction pieces with
  | nil => intro base idx; simp [insertPieces]
  | cons q rest ih =>
    intro base idx
    obtain ⟨t, v⟩ := q
    obtain ⟨ih1, ih2⟩ := ih (base + 2) (idx + 1)
    constructor
    · intro c hc
      simp only [insertPieces, List.mem_cons] at hc
      rcases hc with rfl | hc
      · simp only [List.length_cons]
        omega
      · have := ih1 c hc
        simp only [List.length_cons] at *
        omega
    · intro w hw
      simp only [insertPieces, List.mem_cons] at hw
      rcases hw with rfl | hw
      · simp only [List.length_cons]
        omega
      · have := ih2 w hw
        simp only [List.length_cons] at *
        omega

theorem insertPieces_docId (docId : Nat) (model : String) :
    ∀ (pieces : List (String × List Int)) (base idx : Nat),
      ∀ c ∈ (insertPieces docId model base idx pieces).1,
        c.document_id = docId := by
  intro pieces
  induction pieces with
  | nil => intro base idx; simp [insertPieces]
  | cons q rest ih =>
    intro base idx c hc
    obtain ⟨t, v⟩ := q
    simp only [insertPieces, List.mem_cons] at hc
    rcases hc with rfl | hc
    · rfl
    · exact ih (base + 2) (idx + 1) c hc

theorem insertPieces_chunks_map (docId : Nat) (model : String) :
    ∀ (pieces : List (String × List Int)) (base idx : Nat),
      ((insertPieces docId model base idx pieces).1).map
          (fun c => (c.chunk_index, c.text)) =
        List.enumFrom idx (pieces.map (fun q => q.1)) := by
  intro pieces
  induction pieces with
  | nil => intro base idx; simp [insertPieces]
  | cons q rest ih =>
    intro base idx
    obtain ⟨t, v⟩ := q
    simp only [insertPieces, List.map_cons, List.enumFrom]
    rw [ih (base + 2) (idx + 1)]

theorem insertPieces_vectors (docId : Nat) (model : String) :
    ∀ (pieces : List (String × List Int)) (base idx : Nat)
      (extra : List VecRow), (∀ v ∈ extra, v.chunk_id < base) →
      ((insertPieces docId model base idx pieces).1).map
          (fun c => ((extra ++ (insertPieces docId model base idx pieces).2).filter
            (fun v => v.chunk_id = c.chunk_id)).map (fun v => v.vector)) =
        pieces.map (fun q => [q.2]) := by
  intro pieces
  induction pieces with
  | nil => intro base idx extra _; simp [insertPieces]
  | cons q rest ih =>
    intro base idx extra hextra
    obtain ⟨t, v⟩ := q
    simp only [insertPieces, List.map_cons]
    rw [List.cons_eq_cons]
    constructor
    · have hex : extra.filter (fun w => w.chunk_id = base) = [] := by
        rw [List.filter_eq_nil_iff]
        intro w hw
        have := hextra w hw
        simp only [decide_eq_true_eq]
        omega
      have hrest : ((insertPieces docId model (base + 2) (idx + 1) rest).2).filter
          (fun w => w.chunk_id = base) = [] := by
        rw [List.filter_eq_nil_iff]
        intro w hw
        have := ((insertPieces_bounds docId model rest (base + 2) (idx + 1)).2
          w hw).1
        simp only [decide_eq_true_eq]
        omega
      simp only [List.filter_append, List.filter_cons]
      simp [hex, hrest]
    · have hassoc : extra ++ (⟨base + 1, base, model, v⟩ : VecRow) ::
          (insertPieces docId model (base + 2) (idx + 1) rest).2 =
          (extra ++ [⟨base + 1, base, model, v⟩]) ++
            (insertPieces docId model (base + 2) (idx + 1) rest).2 := by
        simp
      have hextra2 : ∀ w ∈ extra ++ [(⟨base + 1, base, model, v⟩ : VecRow)],
          w.chunk_id < base + 2 := by
        intro w hw
        rcases List.mem_append.mp hw with h | h
        · have := hextra w h
          omega
        · simp only [List.mem_singleton] at h
          rw [h]
          show base < base + 2
          omega
      rw [hassoc]
      exact ih (base + 2) (idx + 1) _ hextra2

theorem filter_path_of_find_some :
    ∀ (l : List DocRow) (p : String) (d0 : DocRow),
      (l.map (fun d => d.gcs_path)).Nodup →
      l.find? (fun d => d.gcs_path = p) = some d0 →
      l.filter (fun d => d.gcs_path = p) = [d0] := by
  intro l
  induction l with
  | nil => intro p d0 _ h; cases h
  | cons h t ih =>
    intro p d0 hnd hf
    by_cases hp : h.gcs_path = p
    · rw [List.find?_cons_of_pos _ (by simp [hp])] at hf
      obtain rfl : h = d0 := Option.some.inj hf
      rw [List.filter_cons_of_pos (by simp [hp])]
      have ht : t.filter (fun d => d.gcs_path = p) = [] := by
        rw [List.filter_eq_nil_iff]
        intro d hd
        simp only [decide_eq_true_eq]
        intro hdp
        have hmem : h.gcs_path ∈ t.map (fun d => d.gcs_path) :=
          List.mem_map.mpr ⟨d, hd, hdp.trans hp.symm⟩
        exact (List.nodup_cons.mp hnd).1 hmem
      rw [ht]
    · rw [List.find?_cons_of_neg _ (by simp [hp])] at hf
      rw [List.filter_cons_of_neg (by simp [hp])]
      exact ih p d0 (List.nodup_cons.mp hnd).2 hf

theorem filter_path_of_find_none (l : List DocRow) (p : String)
    (h : l.find? (fun d => d.gcs_path = p) = none) :
    l.filter (fun d => d.gcs_path = p) = [] := by
  rw [List.filter_eq_nil_iff]
  intro d hd
  have := List.find?_eq_none.mp h d hd
  simpa using this

theorem chunks_split (old new : List ChunkRow) (docId : Nat)
    (hnew : ∀ c ∈ new, c.document_id = docId) :
    (old.filter (fun c => c.document_id ≠ docId) ++ new).filter
      (fun c => c.document_id = docId) = new := by
  rw [List.filter_append]
  have h1 : (old.filter (fun c => c.document_id ≠ docId)).filter
      (fun c => c.document_id = docId) = [] := by
    rw [List.filter_eq_nil_iff]
    intro c hc
    have := List.of_mem_filter hc
    simp only [decide_eq_true_eq] at this ⊢
    exact this
  have h2 : new.filter (fun c => c.document_id = docId) = new :=
    List.filter_eq_self.mpr (fun c hc => by simp [hnew c hc])
  rw [h1, h2, List.nil_append]

theorem store_run (dim : Nat) (model p : String)
    (pieces : List (String × List Int)) (st : StoreState)
    (hwf : StoreWF st) (hdim : ∀ q ∈ pieces, q.2.length = dim) :
    ∃ st' docId,
      store_embedded_documents dim model p pieces st = .ok st' ∧
      StoreWF st' ∧
      (docsWithPath st' p).map (fun d => d.doc_id) = [docId] ∧
      (chunksOfDoc st' docId).map (fun c => (c.chunk_index, c.text)) =
        List.enumFrom 0 (pieces.map (fun q => q.1)) ∧
      (chunksOfDoc st' docId).map
          (fun c => (vectorsOfChunk st' c.chunk_id).map (fun v => v.vector)) =
        pieces.map (fun q => [q.2]) := by
  obtain ⟨hnd, hck, hvk⟩ := hwf
  have hcond : ¬(pieces.any (fun q => q.2.length ≠ dim) = true) := by
    intro hc
    rw [List.any_eq_true] at hc
    obtain ⟨q, hq, hne⟩ := hc
    simp only [decide_eq_true_eq] at hne
    exact hne (hdim q hq)
  cases hfound : st.documents.find? (fun d => d.gcs_path = p) with
  | some d0 =>
    have hupd : ∀ d : DocRow,
        ((if d.doc_id = d0.doc_id then { d with status := "stored" }
          else d) : DocRow).gcs_path = d.gcs_path := by
      intro d; split <;> rfl
    have hupdid : ∀ d : DocRow,
        ((if d.doc_id = d0.doc_id then { d with status := "stored" }
          else d) : DocRow).doc_id = d.doc_id := by
      intro d; split <;> rfl
    have hsurv : ∀ v ∈ st.document_vectors.filter (fun v =>
        v.chunk_id ∉ (st.document_chunks.filter
          (fun c => c.document_id = d0.doc_id)).map (fun c => c.chunk_id)),
        v.chunk_id < st.next_id + 1 := by
      intro v hv
      have := hvk v (List.mem_filter.mp hv).1
      omega
    have hstep : store_embedded_documents dim model p pieces st = .ok
        { documents := st.documents.map (fun d =>
            if d.doc_id = d0.doc_id then { d with status := "stored" } else d)
          document_chunks := st.document_chunks.filter
              (fun c => c.document_id ≠ d0.doc_id) ++
            (insertPieces d0.doc_id model (st.next_id + 1) 0 pieces).1
          document_vectors := (st.document_vectors.filter (fun v =>
              v.chunk_id ∉ (st.document_chunks.filter
                (fun c => c.document_id = d0.doc_id)).map
                  (fun c => c.chunk_id))) ++
            (insertPieces d0.doc_id model (st.next_id + 1) 0 pieces).2
          next_id := st.next_id + 1 + 2 * pieces.length } := by
      simp only [store_embedded_documents, hfound, if_neg hcond]
    refine ⟨_, d0.doc_id, hstep, ⟨?_, ?_, ?_⟩, ?_, ?_, ?_⟩
    · show ((st.documents.map (fun d =>
        if d.doc_id = d0.doc_id then { d with status := "stored" }
        else d)).map (fun d => d.gcs_path)).Nodup
      rw [List.map_map]
      have heq : st.documents.map ((fun d => d.gcs_path) ∘ (fun d =>
          if d.doc_id = d0.doc_id then { d with status := "stored" }
          else d)) = st.documents.map (fun d => d.gcs_path) :=
        List.map_congr_left (fun d _ => hupd d)
      rw [heq]
      exact hnd
    · intro c hc
      rcases List.mem_append.mp hc with h | h
      · have := hck c (List.mem_filter.mp h).1
        show c.chunk_id < st.next_id + 1 + 2 * pieces.length
        omega
      · have := ((insertPieces_bounds d0.doc_id model pieces
          (st.next_id + 1) 0).1 c h).2
        show c.chunk_id < st.next_id + 1 + 2 * pieces.length
        omega
    · intro v hv
      rcases List.mem_append.mp hv with h | h
      · have := hvk v (List.mem_filter.mp h).1
        show v.chunk_id < st.next_id + 1 + 2 * pieces.length
        omega
      · have := ((insertPieces_bounds d0.doc_id model pieces
          (st.next_id + 1) 0).2 v h).2
        show v.chunk_id < st.next_id + 1 + 2 * pieces.length
        omega
    · simp only [docsWithPath]
      rw [List.filter_map]
      have hfc : st.documents.filter ((fun d => decide (d.gcs_path = p)) ∘
          (fun d => if d.doc_id = d0.doc_id then { d with status := "stored" }
            else d)) = st.documents.filter (fun d => d.gcs_path = p) :=
        List.filter_congr (fun (d : DocRow) _ => by
          simp only [Function.comp_apply, hupd d])
      rw [hfc, filter_path_of_find_some st.documents p d0 hnd hfound]
      simp [hupdid d0]
    · simp only [chunksOfDoc]
      rw [chunks_split _ _ _
        (insertPieces_docId d0.doc_id model pieces (st.next_id + 1) 0)]
      exact insertPieces_chunks_map d0.doc_id model pieces (st.next_id + 1) 0
    · simp only [chunksOfDoc, vectorsOfChunk]
      rw [chunks_split _ _ _
        (insertPieces_docId d0.doc_id model pieces (st.next_id + 1) 0)]
      exact insertPieces_vectors d0.doc_id model pieces (st.next_id + 1) 0 _
        hsurv
  | none =>
    have hnop : p ∉ st.documents.map (fun d => d.gcs_path) := by
      intro hmem
      obtain ⟨d, hd, hdp⟩ := List.mem_map.mp hmem
      have := List.find?_eq_none.mp hfound d hd
      simp [hdp] at this
    have hsurv : ∀ v ∈ st.document_vectors.filter (fun v =>
        v.chunk_id ∉ (st.document_chunks.filter
          (fun c => c.document_id = st.next_id)).map (fun c => c.chunk_id)),
        v.chunk_id < st.next_id + 1 := by
      intro v hv
      have := hvk v (List.mem_filter.mp hv).1
      omega
    have hstep : store_embedded_documents dim model p pieces st = .ok
        { documents := st.documents ++ [⟨st.next_id, p, "stored"⟩]
          document_chunks := st.document_chunks.filter
              (fun c => c.document_id ≠ st.next_id) ++
            (insertPieces st.next_id model (st.next_id + 1) 0 pieces).1
          document_vectors := (st.document_vectors.filter (fun v =>
              v.chunk_id ∉ (st.document_chunks.filter
                (fun c => c.document_id = st.next_id)).map
                  (fun c => c.chunk_id))) ++
            (insertPieces st.next_id model (st.next_id + 1) 0 pieces).2
          next_id := st.next_id + 1 + 2 * pieces.length } := by
      simp only [store_embedded_documents, hfound, if_neg hcond]
    refine ⟨_, st.next_id, hstep, ⟨?_, ?_, ?_⟩, ?_, ?_, ?_⟩
    · show ((st.documents ++ [(⟨st.next_id, p, "stored"⟩ : DocRow)]).map
        (fun d => d.gcs_path)).Nodup
      rw [List.map_append]
      simp [List.nodup_append, hnd, hnop]
    · intro c hc
      rcases List.mem_append.mp hc with h | h
      · have := hck c (List.mem_filter.mp h).1
        show c.chunk_id < st.next_id + 1 + 2 * pieces.length
        omega
      · have := ((insertPieces_bounds st.next_id model pieces
          (st.next_id + 1) 0).1 c h).2
        show c.chunk_id < st.next_id + 1 + 2 * pieces.length
        omega
    · intro v hv
      rcases List.mem_append.mp hv with h | h
      · have := hvk v (List.mem_filter.mp h).1
        show v.chunk_id < st.next_id + 1 + 2 * pieces.length
        omega
      · have := ((insertPieces_bounds st.next_id model pieces
          (st.next_id + 1) 0).2 v h).2
        show v.chunk_id < st.next_id + 1 + 2 * pieces.length
        omega
    · simp only [docsWithPath, List.filter_append]
      rw [filter_path_of_find_none st.documents p hfound]
      simp
    · simp only [chunksOfDoc]
      rw [chunks_split _ _ _
        (insertPieces_docId st.next_id model pieces (st.next_id + 1) 0)]
      exact insertPieces_chunks_map st.next_id model pieces (st.next_id + 1) 0
    · simp only [chunksOfDoc, vectorsOfChunk]
      rw [chunks_split _ _ _
        (insertPieces_docId st.next_id model pieces (st.next_id + 1) 0)]
      exact insertPieces_vectors st.next_id model pieces (st.next_id + 1) 0 _
        hsurv

/-- C2: re-ingesting the same storage location into the same workspace
twice leaves exactly one Document row for that location, and its chunk
and vector sets equal the output of the latest run — chunk indices are
0,1,2,… over the latest run's texts and each chunk carries exactly the
one vector produced for it by the latest run, never a doubled set. -/
theorem store_embedded_documents_idempotent
    (dim : Nat) (model p : String)
    (pieces1 pieces2 : List (String × List Int)) (st : StoreState)
    (hwf : StoreWF st)
    (h1 : ∀ q ∈ pieces1, q.2.length = dim)
    (h2 : ∀ q ∈ pieces2, q.2.length = dim) :
    ∃ st1 st2,
      store_embedded_documents dim model p pieces1 st = .ok st1 ∧
      store_embedded_documents dim model p pieces2 st1 = .ok st2 ∧
      (docsWithPath st2 p).length = 1 ∧
      ∀ d ∈ docsWithPath st2 p,
        (chunksOfDoc st2 d.doc_id).map (fun c => (c.chunk_index, c.text)) =
          List.enumFrom 0 (pieces2.map (fun q => q.1)) ∧
        (chunksOfDoc st2 d.doc_id).map
            (fun c => (vectorsOfChunk st2 c.chunk_id).map
              (fun v => v.vector)) =
          pieces2.map (fun q => [q.2]) := by
  obtain ⟨st1, docId1, hs1, hwf1, -, -, -⟩ :=
    store_run dim model p pieces1 st hwf h1
  obtain ⟨st2, docId2, hs2, hwf2, hdocs2, hch2, hv2⟩ :=
    store_run dim model p pieces2 st1 hwf1 h2
  refine ⟨st1, st2, hs1, hs2, ?_, ?_⟩
  · have := congrArg List.length hdocs2
    simpa using this
  · intro d hd
    have hid : d.doc_id = docId2 := by
      have hmem : d.doc_id ∈ (docsWithPath st2 p).map (fun d => d.doc_id) :=
        List.mem_map_of_mem _ hd
      rw [hdocs2] at hmem
      simpa using hmem
    rw [hid]
    exact ⟨hch2, hv2⟩

/-- C6: when any incoming vector's dimensionality differs from the
configured column dimension, the storage stage fails with
`DimensionMismatchError` and the transaction is aborted: the resulting
state is exactly the previous one, every previously stored document,
chunk and vector row unchanged. -/
theorem store_dimension_mismatch
    (dim : Nat) (model p : String) (pieces : List (String × List Int))
    (st : StoreState) (h : ∃ q ∈ pieces, q.2.length ≠ dim) :
    store_embedded_documents dim model p pieces st =
      .error .dimensionMismatch ∧
    runStore dim model p pieces st = st := by
  have hcond : pieces.any (fun q => q.2.length ≠ dim) = true := by
    rw [List.any_eq_true]
    obtain ⟨q, hq, hne⟩ := h
    exact ⟨q, hq, by simpa using hne⟩
  have herr : store_embedded_documents dim model p pieces st =
      .error .dimensionMismatch := by
    simp only [store_embedded_documents, if_pos hcond]
  exact ⟨herr, by simp only [runStore, herr]⟩

/-- A concrete pre-populated store for the witnesses. -/
def stExample : StoreState :=
  ⟨[⟨0, "gs://b/old", "stored"⟩], [⟨1, 0, 0, "t"⟩], [⟨2, 1, "m", [5, 6]⟩], 3⟩

/-- Witness for C6: a 3-dimensional vector against a 2-dimensional
column, on a non-empty prior state. -/
theorem store_dimension_mismatch_witness :
    store_embedded_documents 2 "m" "gs://b/f" [("a", [1, 2, 3])] stExample =
      .error .dimensionMismatch ∧
    runStore 2 "m" "gs://b/f" [("a", [1, 2, 3])] stExample = stExample :=
  store_dimension_mismatch 2 "m" "gs://b/f" [("a", [1, 2, 3])] stExample
    ⟨("a", [1, 2, 3]), by decide, by decide⟩

/-- Witness for C2: two ingestion runs of `gs://b/f` into a store already
holding another document. -/
theorem store_idempotent_witness :
    ∃ st1 st2,
      store_embedded_documents 2 "m" "gs://b/f" [("a", [1, 2])] stExample =
        .ok st1 ∧
      store_embedded_documents 2 "m" "gs://b/f" [("b", [3, 4]), ("c", [5, 6])]
        st1 = .ok st2 ∧
      (docsWithPath st2 "gs://b/f").length = 1 ∧
      ∀ d ∈ docsWithPath st2 "gs://b/f",
        (chunksOfDoc st2 d.doc_id).map (fun c => (c.chunk_index, c.text)) =
          List.enumFrom 0 ([("b", ([3, 4] : List Int)), ("c", [5, 6])].map
            (fun q => q.1)) ∧
        (chunksOfDoc st2 d.doc_id).map
            (fun c => (vectorsOfChunk st2 c.chunk_id).map
              (fun v => v.vector)) =
          [("b", ([3, 4] : List Int)), ("c", [5, 6])].map (fun q => [q.2]) :=
  store_embedded_documents_idempotent 2 "m" "gs://b/f" [("a", [1, 2])]
    [("b", [3, 4]), ("c", [5, 6])] stExample
    ⟨by simp [stExample], by decide, by decide⟩ (by decide) (by decide)


/- ------------------------------------------------------------------
Retrieval ranking (C5).  The retrieval engine is not part of the
repository snapshot; modelled from spec 4.3 step 3.
------------------------------------------------------------------ -/

/-- Modelled from the spec: a DocumentVector of the queried workspace
joined to its chunk, as ranked by the retrieval engine (the engine
itself is missing from the snapshot).  Scores are rationals so that the
ordering is decidable; the metric is a parameter (`cosine`, `l2` or
`inner` per the configuration). -/
structure CandidateChunk where
  document_id : Nat
  chunk_index : Nat
  vec : List ℚ
deriving DecidableEq

/-- The sort key of spec 4.3 step 3: best similarity first, ties broken
by ascending chunk index, then ascending document id. -/
def rankKey (dist : List ℚ → List ℚ → ℚ) (q : List ℚ) (r : CandidateChunk) :
    ℚ ×ₗ (ℕ ×ₗ ℕ) :=
  toLex (dist q r.vec, toLex (r.chunk_index, r.document_id))

/-- The ranking order: lexicographic comparison of `rankKey`s. -/
def rankLE (dist : List ℚ → List ℚ → ℚ) (q : List ℚ)
    (a b : CandidateChunk) : Prop :=
  rankKey dist q a ≤ rankKey dist q b

instance (dist : List ℚ → List ℚ → ℚ) (q : List ℚ) :
    DecidableRel (rankLE dist q) :=
  fun a b => inferInstanceAs (Decidable (rankKey dist q a ≤ rankKey dist q b))

/-- Modelled from the spec: rank every candidate chunk of the workspace
by the configured metric against the query vector and return the `top_k`
best, ties broken by chunk index then document id. -/
def rank_chunks (dist : List ℚ → List ℚ → ℚ) (q : List ℚ) (k : Nat)
    (rows : List CandidateChunk) : List CandidateChunk :=
  (List.insertionSort (rankLE dist q) rows).take k

/-- Two sorted permutations of each other are equal, given antisymmetry
on the elements actually present. -/
theorem eq_of_perm_of_sorted_onMem {α : Type} {r : α → α → Prop} :
    ∀ {l₁ l₂ : List α}, l₁.Perm l₂ → List.Sorted r l₁ → List.Sorted r l₂ →
      (∀ a ∈ l₂, ∀ b ∈ l₂, r a b → r b a → a = b) → l₁ = l₂ := by
  intro l₁
  induction l₁ with
  | nil =>
    intro l₂ hp _ _ _
    exact hp.nil_eq
  | cons a l₁ IH =>
    intro l₂ hp hs₁ hs₂ anti
    obtain ⟨h₁, hs₁'⟩ := List.pairwise_cons.mp hs₁
    have ha : a ∈ l₂ := hp.subset (List.mem_cons_self _ _)
    rcases List.append_of_mem ha with ⟨u₂, v₂, rfl⟩
    have hp' := (List.perm_cons a).1 (hp.trans List.perm_middle)
    have hs₂' : List.Sorted r (u₂ ++ v₂) := hs₂.sublist (by simp)
    have hsub : (u₂ ++ v₂) ⊆ u₂ ++ a :: v₂ := by
      intro z hz
      rcases List.mem_append.mp hz with h | h
      · exact List.mem_append.mpr (Or.inl h)
      · exact List.mem_append.mpr (Or.inr (List.mem_cons_of_mem _ h))
    have anti' : ∀ x ∈ u₂ ++ v₂, ∀ y ∈ u₂ ++ v₂, r x y → r y x → x = y :=
      fun x hx y hy => anti x (hsub hx) y (hsub hy)
    obtain heq := IH hp' hs₁' hs₂' anti'
    rw [heq]
    have hall : ∀ x ∈ u₂, x = a := by
      intro x m
      have h1 : r x a :=
        (List.pairwise_append.1 hs₂).2.2 _ m a (List.mem_cons_self _ _)
      have h2 : r a x := by
        apply h₁
        rw [heq]
        exact List.mem_append.mpr (Or.inl m)
      exact anti x (List.mem_append.mpr (Or.inl m)) a ha h1 h2
    have hrep1 : a :: u₂ = List.replicate (u₂.length + 1) a := by
      rw [List.eq_replicate_iff]
      refine ⟨by simp, ?_⟩
      intro b hb
      rcases List.mem_cons.mp hb with rfl | hb
      · rfl
      · exact hall b hb
    have hrep2 : u₂ ++ [a] = List.replicate (u₂.length + 1) a := by
      rw [List.eq_replicate_iff]
      refine ⟨by simp, ?_⟩
      intro b hb
      rcases List.mem_append.mp hb with hb | hb
      · exact hall b hb
      · simpa using hb
    calc a :: (u₂ ++ v₂) = (a :: u₂) ++ v₂ := rfl
      _ = (u₂ ++ [a]) ++ v₂ := by rw [hrep1, hrep2]
      _ = u₂ ++ a :: v₂ := by simp

/-- C5: similarity ranking is deterministic — for a fixed stored vector
set (up to storage order), workspace and query vector, any two
executions return the identical ordering: the `top_k` chunks ordered
best similarity first with ties broken by ascending chunk index then
ascending document id, provided distinct candidates never share a
`(document_id, chunk_index)` pair (the `UNIQUE (document_id,
chunk_index)` constraint plus one vector per chunk). -/
theorem rank_chunks_deterministic (dist : List ℚ → List ℚ → ℚ) (q : List ℚ)
    (k : Nat) (rows rows' : List CandidateChunk) (hperm : rows.Perm rows')
    (hvalid : ∀ a ∈ rows, ∀ b ∈ rows,
      a.document_id = b.document_id → a.chunk_index = b.chunk_index →
        a = b) :
    rank_chunks dist q k rows = rank_chunks dist q k rows' ∧
    List.Sorted (rankLE dist q) (rank_chunks dist q k rows) ∧
    (rank_chunks dist q k rows).length = min k rows.length := by
  haveI htot : IsTotal CandidateChunk (rankLE dist q) :=
    ⟨fun a b => le_total (rankKey dist q a) (rankKey dist q b)⟩
  haveI htr : IsTrans CandidateChunk (rankLE dist q) :=
    ⟨fun a b c hab hbc => le_trans hab hbc⟩
  have hanti : ∀ a ∈ rows, ∀ b ∈ rows,
      rankLE dist q a b → rankLE dist q b a → a = b := by
    intro a ha b hb hab hba
    have hk : rankKey dist q a = rankKey dist q b := le_antisymm hab hba
    simp only [rankKey, toLex_inj, Prod.mk.injEq] at hk
    exact hvalid a ha b hb hk.2.2 hk.2.1
  refine ⟨?_, ?_, ?_⟩
  · have hsp : (List.insertionSort (rankLE dist q) rows).Perm
        (List.insertionSort (rankLE dist q) rows') :=
      ((List.perm_insertionSort _ rows).trans hperm).trans
        (List.perm_insertionSort _ rows').symm
    have hmem : ∀ a ∈ List.insertionSort (rankLE dist q) rows', a ∈ rows :=
      fun a h =>
        hperm.symm.subset ((List.perm_insertionSort _ rows').subset h)
    have heq : List.insertionSort (rankLE dist q) rows =
        List.insertionSort (rankLE dist q) rows' :=
      eq_of_perm_of_sorted_onMem hsp (List.sorted_insertionSort _ rows)
        (List.sorted_insertionSort _ rows')
        (fun a ha b hb => hanti a (hmem a ha) b (hmem b hb))
    simp only [rank_chunks, heq]
  · exact List.Pairwise.sublist (List.take_sublist _ _)
      (List.sorted_insertionSort _ rows)
  · simp only [rank_chunks, List.length_take,
      (List.perm_insertionSort (rankLE dist q) rows).length_eq]


/-- Squared Euclidean distance, a concrete decidable instance of the
configured metric for the witness. -/
def l2_distance_sq (u v : List ℚ) : ℚ :=
  ((u.zip v).map (fun p => (p.1 - p.2) * (p.1 - p.2))).sum

/-- Witness for C5 on two candidate chunks presented in two different
storage orders. -/
theorem rank_chunks_deterministic_witness :
    rank_chunks l2_distance_sq [0, 1] 2
        [⟨1, 0, [0, 1]⟩, ⟨1, 1, [1, 0]⟩] =
      rank_chunks l2_distance_sq [0, 1] 2
        [⟨1, 1, [1, 0]⟩, ⟨1, 0, [0, 1]⟩] ∧
    List.Sorted (rankLE l2_distance_sq [0, 1])
      (rank_chunks l2_distance_sq [0, 1] 2
        [⟨1, 0, [0, 1]⟩, ⟨1, 1, [1, 0]⟩]) ∧
    (rank_chunks l2_distance_sq [0, 1] 2
      [⟨1, 0, [0, 1]⟩, ⟨1, 1, [1, 0]⟩]).length =
      min 2 ([⟨1, 0, [0, 1]⟩, ⟨1, 1, [1, 0]⟩] :
        List CandidateChunk).length :=
  rank_chunks_deterministic l2_distance_sq [0, 1] 2 _ _
    (by decide) (by decide)

end GCPRag
